import Mathlib

/-!
# Verification of the binary-sampling probability engine

Shallow embedding of the notebook source `src/BinarySampling.ipynb`.

Conventions of the embedding:
* Python integers are `Int` (arbitrary precision, like CPython ints).
* A Python function that can raise an exception is embedded with result
  type `Option _`; `none` means the call raised (`ValueError` from
  `math.factorial` on a negative argument, or `ZeroDivisionError`).
* Python `//` on non-negative integers is `Nat` division.
* Python true division `x / y` of two ints produces the IEEE-754 double
  nearest to the exact quotient (CPython's `long_true_divide` rounds the
  exact rational correctly, it never converts the operands separately).
  The probability functions are therefore embedded with the exact
  rational value `ℚ` of the quotient; the double actually returned by
  the code is the correct rounding of that rational, and correct
  rounding is monotone and exact at 0 and 1, so order facts proved for
  the rationals transfer to the floats.
* For `B_guess`, whose result is an *int* obtained by truncating a
  float product, the rounding itself is observable; there the embedding
  models binary64 rounding explicitly (`toDouble`).
-/

/-- Evaluation of `math.factorial`: raises `ValueError` on a negative
argument, otherwise the exact factorial. -/
def pyFactorial (n : Int) : Option Nat :=
  if n < 0 then none else some n.toNat.factorial

/-- Cell 5: `choose(n, k)`. Returns 0 when `n < k`; otherwise computes
`math.factorial(n) // (math.factorial(n - k) * math.factorial(k))`,
which raises `ValueError` when any factorial argument is negative. -/
def choose (n k : Int) : Option Nat :=
  if n < k then some 0
  else do
    let a ← pyFactorial n
    let c ← pyFactorial (n - k)
    let d ← pyFactorial k
    some (a / (c * d))

/-- The integers produced by Python `range(lo, hi)`, in order. -/
def intRange (lo hi : Int) : List Int :=
  (List.range (hi - lo).toNat).map (fun i : Nat => lo + (i : Int))

/-- Cell 8: `ways_to_get_specific_sample_from_specific_jar`, the
phi-function `choose(B, b) * choose(N - B, s - b)`. -/
def ways_to_get_specific_sample_from_specific_jar
    (jar_size jar_blues sample_size sample_blues : Int) : Option Nat := do
  let x ← choose jar_blues sample_blues
  let y ← choose (jar_size - jar_blues) (sample_size - sample_blues)
  some (x * y)

/-- Cell 9: `ways_to_get_all_samples_of_given_size_from_specific_jar`,
the denominator of f: the phi-function summed over
`b in range(sample_size + 1)`. -/
def ways_to_get_all_samples_of_given_size_from_specific_jar
    (jar_size jar_blues sample_size : Int) : Option Nat := do
  let terms ← (intRange 0 (sample_size + 1)).mapM
    (fun b => ways_to_get_specific_sample_from_specific_jar jar_size jar_blues sample_size b)
  some terms.sum

/-- Cell 10: `probability_of_getting_specific_sample_from_specific_jar`
(our f), the exact value of numerator / denominator; a zero denominator
raises `ZeroDivisionError`. -/
def probability_of_getting_specific_sample_from_specific_jar
    (jar_size jar_blues sample_size sample_blues : Int) : Option ℚ := do
  let num ← ways_to_get_specific_sample_from_specific_jar
    jar_size jar_blues sample_size sample_blues
  let den ← ways_to_get_all_samples_of_given_size_from_specific_jar
    jar_size jar_blues sample_size
  if den = 0 then none else some ((num : ℚ) / (den : ℚ))

/-- Cell 14: `ways_to_get_specific_sample_from_all_jars_of_given_size`,
the denominator of g: the phi-function summed over
`B in range(jar_size + 1)`. -/
def ways_to_get_specific_sample_from_all_jars_of_given_size
    (jar_size sample_size sample_blues : Int) : Option Nat := do
  let terms ← (intRange 0 (jar_size + 1)).mapM
    (fun B => ways_to_get_specific_sample_from_specific_jar jar_size B sample_size sample_blues)
  some terms.sum

/-- Cell 16: `probability_that_specific_sample_came_from_specific_jar`
(our g). -/
def probability_that_specific_sample_came_from_specific_jar
    (jar_size jar_blues sample_size sample_blues : Int) : Option ℚ := do
  let num ← ways_to_get_specific_sample_from_specific_jar
    jar_size jar_blues sample_size sample_blues
  let den ← ways_to_get_specific_sample_from_all_jars_of_given_size
    jar_size sample_size sample_blues
  if den = 0 then none else some ((num : ℚ) / (den : ℚ))

/-- Cell 20: `ways_to_get_specific_sample_from_interval_of_jars`, the
numerator of h: the phi-function summed over `B in range(lower, upper + 1)`. -/
def ways_to_get_specific_sample_from_interval_of_jars
    (jar_size lower upper sample_size sample_blues : Int) : Option Nat := do
  let terms ← (intRange lower (upper + 1)).mapM
    (fun B => ways_to_get_specific_sample_from_specific_jar jar_size B sample_size sample_blues)
  some terms.sum

/-- Cell 22: `probability_that_specific_sample_came_from_interval_of_jars`
(our h). -/
def probability_that_specific_sample_came_from_interval_of_jars
    (jar_size lower upper sample_size sample_blues : Int) : Option ℚ := do
  let num ← ways_to_get_specific_sample_from_interval_of_jars
    jar_size lower upper sample_size sample_blues
  let den ← ways_to_get_specific_sample_from_all_jars_of_given_size
    jar_size sample_size sample_blues
  if den = 0 then none else some ((num : ℚ) / (den : ℚ))

/-- Round a rational to the nearest integer, ties to even: the rounding
used by IEEE-754 binary64 arithmetic. -/
def roundHalfEven (q : ℚ) : Int :=
  let f := ⌊q⌋
  if q - f < 1 / 2 then f
  else if 1 / 2 < q - f then f + 1
  else if f % 2 = 0 then f else f + 1

/-- The IEEE-754 binary64 double nearest to a rational, as an exact
rational: the significand is rounded to 53 bits, ties to even. Normal
range only (no subnormal or overflow handling), which is faithful for
every magnitude arising in this development. -/
def toDouble (q : ℚ) : ℚ :=
  if q = 0 then 0
  else
    let sgn : ℚ := if q < 0 then -1 else 1
    let e : Int := Int.log 2 |q| - 52
    sgn * (roundHalfEven (|q| * (2 : ℚ) ^ (-e)) : ℚ) * (2 : ℚ) ^ e

/-- Python `int(x)` on a float truncates toward zero. -/
def pyTrunc (q : ℚ) : Int :=
  if 0 ≤ q then ⌊q⌋ else -⌊-q⌋

/-- Cell 26: `B_guess(jar_size, sample_size, sample_blues)`, which is
`int(sample_blues * (jar_size / sample_size))`. The inner division is
Python float division (raising `ZeroDivisionError` when
`sample_size == 0`), so the center estimate is computed in binary64:
the quotient is rounded to a double, the int factor is converted to a
double, their product is rounded to a double, and the result is
truncated toward zero. -/
def B_guess (jar_size sample_size sample_blues : Int) : Option Int :=
  if sample_size = 0 then none
  else
    some (pyTrunc (toDouble (toDouble (sample_blues : ℚ) *
      toDouble ((jar_size : ℚ) / (sample_size : ℚ)))))

/-- The `while p < confidence` loop of cell 28, with an explicit fuel
argument added to express the recursion in Lean. The fuel is an
artifact of the embedding: `theta` below supplies enough fuel that the
loop provably never exhausts it under the preconditions of the spec
(s > 0, 0 <= b <= s <= N, confidence < 1); with insufficient fuel the
loop answers `none`, which also stands for the non-termination of the
Python loop when `confidence > 1`. -/
def thetaLoop (jar_size sample_size sample_blues : Int) (confidence : ℚ)
    (Bg : Int) : Nat → Int → Option (Int × Int)
  | 0, _ => none
  | fuel + 1, delta => do
    let p ← probability_that_specific_sample_came_from_interval_of_jars
      jar_size (Bg - delta) (Bg + delta) sample_size sample_blues
    if p < confidence then
      thetaLoop jar_size sample_size sample_blues confidence Bg fuel (delta + 1)
    else
      some (Bg, delta)

/-- Cell 28: `theta(jar_size, sample_size, sample_blues, confidence)`:
start from the point estimate `Bg` and half-width 1, widen by one while
the interval probability stays below `confidence`, and return the pair
`(Bg, delta)` at the first half-width reaching it. -/
def theta (jar_size sample_size sample_blues : Int) (confidence : ℚ) :
    Option (Int × Int) := do
  let Bg ← B_guess jar_size sample_size sample_blues
  thetaLoop jar_size sample_size sample_blues confidence Bg
    ((max Bg (jar_size - Bg)).toNat + 2) 1

/-- Total counterpart of `choose` on the region where the code cannot
raise (`k ≥ 0`): zero when `n < k`, else the binomial coefficient. -/
def chooseZ (n k : Int) : Nat :=
  if n < k then 0 else n.toNat.choose k.toNat

/-- Total counterpart of the phi-function. -/
def phi (N B s b : Int) : Nat :=
  chooseZ B b * chooseZ (N - B) (s - b)

/-! ## Relating the embedded code to total counterparts

The code raises no exception on the region `sample_blues ≥ 0` and
`sample_blues ≤ sample_size`; there each counting function agrees with
its total counterpart built from `Nat.choose`. -/

theorem chooseZ_eq_natChoose {n k : Int} (hn : 0 ≤ n) (hk : 0 ≤ k) :
    chooseZ n k = n.toNat.choose k.toNat := by
  unfold chooseZ
  by_cases h : n < k
  · rw [if_pos h, eq_comm]
    exact Nat.choose_eq_zero_of_lt (by omega)
  · rw [if_neg h]

theorem choose_eq_chooseZ {n k : Int} (hk : 0 ≤ k) :
    choose n k = some (chooseZ n k) := by
  unfold choose chooseZ
  by_cases h : n < k
  · rw [if_pos h, if_pos h]
  · rw [if_neg h, if_neg h]
    have hn : 0 ≤ n := le_trans hk (not_lt.mp h)
    simp only [pyFactorial, if_neg (not_lt.mpr hn), if_neg (not_lt.mpr hk),
      if_neg (not_lt.mpr (by omega : (0 : Int) ≤ n - k)), Option.bind_eq_bind,
      Option.some_bind]
    have htn : (n - k).toNat = n.toNat - k.toNat := by omega
    rw [htn, Nat.choose_eq_factorial_div_factorial (by omega : k.toNat ≤ n.toNat),
      Nat.mul_comm]

theorem choose_eq_none {n k : Int} (hk : k < 0) (hkn : k ≤ n) :
    choose n k = none := by
  unfold choose
  rw [if_neg (not_lt.mpr hkn)]
  rcases lt_or_le n 0 with h | h
  · simp [pyFactorial, if_pos h]
  · simp only [pyFactorial, if_neg (not_lt.mpr h),
      if_neg (not_lt.mpr (by omega : (0 : Int) ≤ n - k)), if_pos hk,
      Option.bind_eq_bind, Option.some_bind, Option.none_bind]

theorem ways_eq_phi {N B s b : Int} (hb : 0 ≤ b) (hbs : b ≤ s) :
    ways_to_get_specific_sample_from_specific_jar N B s b = some (phi N B s b) := by
  unfold ways_to_get_specific_sample_from_specific_jar phi
  rw [choose_eq_chooseZ hb, choose_eq_chooseZ (by omega : (0 : Int) ≤ s - b)]
  rfl

theorem mapM_eq_map {α β : Type} (f : α → Option β) (g : α → β) :
    ∀ l : List α, (∀ x ∈ l, f x = some (g x)) → l.mapM f = some (l.map g) := by
  intro l
  induction l with
  | nil => intro _; rfl
  | cons x xs ih =>
    intro h
    rw [List.mapM_cons, h x (List.mem_cons_self x xs),
      ih (fun y hy => h y (List.mem_cons_of_mem x hy))]
    rfl

theorem mem_intRange {lo hi x : Int} : x ∈ intRange lo hi ↔ lo ≤ x ∧ x < hi := by
  unfold intRange
  constructor
  · intro hx
    obtain ⟨i, hmem, hix⟩ := List.mem_map.mp hx
    have : i < (hi - lo).toNat := List.mem_range.mp hmem
    omega
  · intro h
    exact List.mem_map.mpr ⟨(x - lo).toNat, List.mem_range.mpr (by omega), by omega⟩

theorem Icc_int_succ_top (lo : Int) (n : Nat) :
    Finset.Icc lo (lo + n) = insert (lo + n) (Finset.Icc lo (lo + n - 1)) := by
  ext x
  simp only [Finset.mem_Icc, Finset.mem_insert]
  omega

theorem sum_intRange_aux (f : Int → Nat) (lo : Int) :
    ∀ n : Nat, ((intRange lo (lo + n)).map f).sum
      = ∑ B ∈ Finset.Icc lo (lo + (n : Int) - 1), f B := by
  intro n
  induction n with
  | zero =>
    rw [show Finset.Icc lo (lo + ((0 : Nat) : Int) - 1) = ∅ from
      Finset.Icc_eq_empty (by omega)]
    unfold intRange
    rw [show (lo + ((0 : Nat) : Int) - lo).toNat = 0 by omega]
    rfl
  | succ n ih =>
    unfold intRange
    rw [show (lo + ((n + 1 : Nat) : Int) - lo).toNat = n + 1 by omega,
      List.range_succ, List.map_append, List.map_append, List.sum_append]
    unfold intRange at ih
    rw [show (lo + (n : Int) - lo).toNat = n by omega] at ih
    rw [ih]
    rw [show lo + ((n + 1 : Nat) : Int) - 1 = lo + (n : Int) by omega,
      Icc_int_succ_top lo n,
      Finset.sum_insert (by simp only [Finset.mem_Icc]; omega)]
    simp [Nat.add_comm]

theorem sum_intRange (f : Int → Nat) (lo hi : Int) :
    ((intRange lo hi).map f).sum = ∑ B ∈ Finset.Icc lo (hi - 1), f B := by
  rcases le_or_lt lo hi with h | h
  · have : hi = lo + ((hi - lo).toNat : Int) := by omega
    rw [this, sum_intRange_aux]
  · rw [show Finset.Icc lo (hi - 1) = ∅ from Finset.Icc_eq_empty (by omega)]
    unfold intRange
    rw [show (hi - lo).toNat = 0 by omega]
    rfl

/-- The forward denominator never raises and equals the total sum of
the phi-function over sample compositions 0..s. -/
theorem ways_all_eq (N B s : Int) :
    ways_to_get_all_samples_of_given_size_from_specific_jar N B s
      = some (∑ b ∈ Finset.Icc 0 s, phi N B s b) := by
  unfold ways_to_get_all_samples_of_given_size_from_specific_jar
  rw [mapM_eq_map _ (fun b => phi N B s b) _ (fun x hx => by
    have h := mem_intRange.mp hx
    exact ways_eq_phi (by omega) (by omega))]
  simp only [Option.bind_eq_bind, Option.some_bind]
  rw [sum_intRange]
  norm_num

/-- The reverse denominator never raises on valid samples and equals
the total sum of the phi-function over populations 0..N. -/
theorem ways_jars_eq {s b : Int} (N : Int) (hb : 0 ≤ b) (hbs : b ≤ s) :
    ways_to_get_specific_sample_from_all_jars_of_given_size N s b
      = some (∑ B ∈ Finset.Icc 0 N, phi N B s b) := by
  unfold ways_to_get_specific_sample_from_all_jars_of_given_size
  rw [mapM_eq_map _ (fun B => phi N B s b) _ (fun x hx => ways_eq_phi hb hbs)]
  simp only [Option.bind_eq_bind, Option.some_bind]
  rw [sum_intRange]
  norm_num

/-- The interval numerator never raises on valid samples, for any
bounds, and equals the total sum of the phi-function over the interval. -/
theorem ways_interval_eq {s b : Int} (N L U : Int) (hb : 0 ≤ b) (hbs : b ≤ s) :
    ways_to_get_specific_sample_from_interval_of_jars N L U s b
      = some (∑ B ∈ Finset.Icc L U, phi N B s b) := by
  unfold ways_to_get_specific_sample_from_interval_of_jars
  rw [mapM_eq_map _ (fun B => phi N B s b) _ (fun x hx => ways_eq_phi hb hbs)]
  simp only [Option.bind_eq_bind, Option.some_bind]
  rw [sum_intRange]
  norm_num

/-! ## Arithmetic facts about the phi-function -/

theorem chooseZ_self (n : Int) : chooseZ n n = 1 := by
  unfold chooseZ
  rw [if_neg (lt_irrefl n)]
  exact Nat.choose_self _

theorem chooseZ_pos {n k : Int} (hkn : k ≤ n) : 0 < chooseZ n k := by
  unfold chooseZ
  rw [if_neg (not_lt.mpr hkn)]
  exact Nat.choose_pos (by omega)

/-- A population value outside [0, N] contributes a zero count. -/
theorem phi_eq_zero_of_out {N B s b : Int} (hb : 0 ≤ b) (hbs : b ≤ s)
    (h : B < 0 ∨ N < B) : phi N B s b = 0 := by
  unfold phi chooseZ
  rcases h with h | h
  · rw [if_pos (by omega : B < b)]
    exact Nat.zero_mul _
  · rw [if_pos (by omega : N - B < s - b)]
    exact Nat.mul_zero _

/-- The population B = b can always produce the sample: a positive term. -/
theorem phi_self_pos {N s b : Int} (hb : 0 ≤ b) (hbs : b ≤ s) (hsN : s ≤ N) :
    0 < phi N b s b := by
  unfold phi
  exact Nat.mul_pos (by rw [chooseZ_self b]; omega)
    (chooseZ_pos (by omega))

/-- The forward denominator is positive on the valid domain. -/
theorem forward_den_pos {N B s : Int} (hB : 0 ≤ B) (hBN : B ≤ N)
    (hs : 0 ≤ s) (hsN : s ≤ N) :
    0 < ∑ b ∈ Finset.Icc 0 s, phi N B s b := by
  have hmem : min s B ∈ Finset.Icc 0 s := by
    simp only [Finset.mem_Icc]; omega
  refine lt_of_lt_of_le ?_ (Finset.single_le_sum (f := fun b => phi N B s b)
    (fun i _ => Nat.zero_le _) hmem)
  unfold phi
  exact Nat.mul_pos (chooseZ_pos (by omega)) (chooseZ_pos (by omega))

/-- The reverse denominator is positive on the valid domain. -/
theorem reverse_den_pos {N s b : Int} (hb : 0 ≤ b) (hbs : b ≤ s) (hsN : s ≤ N) :
    0 < ∑ B ∈ Finset.Icc 0 N, phi N B s b := by
  have hmem : b ∈ Finset.Icc 0 N := by
    simp only [Finset.mem_Icc]; omega
  exact lt_of_lt_of_le (phi_self_pos hb hbs hsN)
    (Finset.single_le_sum (f := fun B => phi N B s b)
      (fun i _ => Nat.zero_le _) hmem)

/-! ## Evaluating the probability functions on the valid domain -/

theorem forward_prob_eq {N B s b : Int} (hb : 0 ≤ b) (hbs : b ≤ s)
    (hden : 0 < ∑ x ∈ Finset.Icc 0 s, phi N B s x) :
    probability_of_getting_specific_sample_from_specific_jar N B s b
      = some ((phi N B s b : ℚ) / ((∑ x ∈ Finset.Icc 0 s, phi N B s x : Nat) : ℚ)) := by
  unfold probability_of_getting_specific_sample_from_specific_jar
  rw [ways_eq_phi hb hbs, ways_all_eq]
  simp only [Option.bind_eq_bind, Option.some_bind]
  rw [if_neg (by omega)]

theorem reverse_prob_eq {N B s b : Int} (hb : 0 ≤ b) (hbs : b ≤ s)
    (hden : 0 < ∑ x ∈ Finset.Icc 0 N, phi N x s b) :
    probability_that_specific_sample_came_from_specific_jar N B s b
      = some ((phi N B s b : ℚ) / ((∑ x ∈ Finset.Icc 0 N, phi N x s b : Nat) : ℚ)) := by
  unfold probability_that_specific_sample_came_from_specific_jar
  rw [ways_eq_phi hb hbs, ways_jars_eq N hb hbs]
  simp only [Option.bind_eq_bind, Option.some_bind]
  rw [if_neg (by omega)]

theorem interval_prob_eq {N s b : Int} (L U : Int) (hb : 0 ≤ b) (hbs : b ≤ s)
    (hden : 0 < ∑ x ∈ Finset.Icc 0 N, phi N x s b) :
    probability_that_specific_sample_came_from_interval_of_jars N L U s b
      = some ((∑ x ∈ Finset.Icc L U, phi N x s b : Nat)
        / ((∑ x ∈ Finset.Icc 0 N, phi N x s b : Nat) : ℚ)) := by
  unfold probability_that_specific_sample_came_from_interval_of_jars
  rw [ways_interval_eq N L U hb hbs, ways_jars_eq N hb hbs]
  simp only [Option.bind_eq_bind, Option.some_bind]
  rw [if_neg (by omega)]

/-- Terms of the interval numerator vanish outside [0, N], so the sum
over any integer interval equals the sum over its clip to [0, N]. -/
theorem sum_phi_clip {N s b : Int} (hb : 0 ≤ b) (hbs : b ≤ s) (L U : Int) :
    ∑ B ∈ Finset.Icc L U, phi N B s b
      = ∑ B ∈ Finset.Icc (max L 0) (min U N), phi N B s b := by
  rw [eq_comm]
  apply Finset.sum_subset
  · intro x hx
    simp only [Finset.mem_Icc] at hx ⊢
    omega
  · intro x hx hnot
    simp only [Finset.mem_Icc] at hx hnot
    exact phi_eq_zero_of_out hb hbs (by omega)

/-- The interval numerator is bounded by the full reverse denominator. -/
theorem sum_phi_interval_le {N s b : Int} (hb : 0 ≤ b) (hbs : b ≤ s) (L U : Int) :
    ∑ B ∈ Finset.Icc L U, phi N B s b ≤ ∑ B ∈ Finset.Icc 0 N, phi N B s b := by
  rw [sum_phi_clip hb hbs]
  apply Finset.sum_le_sum_of_subset
  intro x hx
  simp only [Finset.mem_Icc] at hx ⊢
  omega

theorem list_range_map_sum (g : Nat → Nat) : ∀ n : Nat,
    ((List.range n).map g).sum = ∑ i ∈ Finset.range n, g i := by
  intro n
  induction n with
  | zero => rfl
  | succ n ih =>
    rw [List.range_succ, List.map_append, List.sum_append, ih, Finset.sum_range_succ]
    simp

theorem sum_Icc_zero_eq_range (f : Int → Nat) {s : Int} (hs : 0 ≤ s) :
    ∑ B ∈ Finset.Icc (0 : Int) s, f B
      = ∑ j ∈ Finset.range (s.toNat + 1), f (j : Int) := by
  have h := sum_intRange f 0 (s + 1)
  rw [show s + 1 - 1 = s by ring] at h
  rw [← h]
  unfold intRange
  rw [List.map_map, show (s + 1 - (0 : Int)).toNat = s.toNat + 1 by omega,
    list_range_map_sum]
  apply Finset.sum_congr rfl
  intro j _
  simp [Function.comp]

/-- Vandermonde: the explicit sum of the phi-function over all sample
compositions collapses to a single binomial coefficient. -/
theorem sum_phi_eq_chooseZ {N B s : Int} (hB : 0 ≤ B) (hBN : B ≤ N) (hs : 0 ≤ s) :
    ∑ b ∈ Finset.Icc (0 : Int) s, phi N B s b = chooseZ N s := by
  rw [sum_Icc_zero_eq_range _ hs]
  have hcz : chooseZ N s = (B.toNat + (N - B).toNat).choose s.toNat := by
    rw [chooseZ_eq_natChoose (by omega) hs]
    congr 1
    omega
  rw [hcz, Nat.add_choose_eq, Finset.Nat.sum_antidiagonal_eq_sum_range_succ_mk]
  apply Finset.sum_congr rfl
  intro j hj
  have hjs : j ≤ s.toNat := by
    have := Finset.mem_range.mp hj
    omega
  unfold phi
  rw [chooseZ_eq_natChoose hB (by omega : (0 : Int) ≤ (j : Int)),
    chooseZ_eq_natChoose (by omega) (by omega : (0 : Int) ≤ s - (j : Int))]
  have h1 : ((j : Int)).toNat = j := by omega
  have h2 : (s - (j : Int)).toNat = s.toNat - j := by omega
  rw [h1, h2]

/-- C5: for every N, B, s with 0 ≤ B ≤ N and 0 ≤ s ≤ N, the forward
denominator computed by the explicit summation of the phi-function over
sample compositions 0..s equals choose(N, s) exactly. -/
theorem C5_denominator_eq_choose {N B s : Int} (hB : 0 ≤ B) (hBN : B ≤ N)
    (hs : 0 ≤ s) (hsN : s ≤ N) :
    ways_to_get_all_samples_of_given_size_from_specific_jar N B s = choose N s := by
  rw [ways_all_eq, choose_eq_chooseZ hs, sum_phi_eq_chooseZ hB hBN hs]

/-- Witness for C5 at N = 7, B = 3, s = 4: both sides evaluate to 35. -/
theorem C5_witness :
    ((0 : Int) ≤ 3 ∧ (3 : Int) ≤ 7 ∧ (0 : Int) ≤ 4 ∧ (4 : Int) ≤ 7) ∧
    ways_to_get_all_samples_of_given_size_from_specific_jar 7 3 4 = choose 7 4 := by
  refine ⟨by decide, ?_⟩
  exact C5_denominator_eq_choose (by decide) (by decide) (by decide) (by decide)

/-- C2: the spec claims every out-of-domain call to forwardProbability
or reverseProbability is rejected with a defined InvalidDomain error.
The code contradicts this: reverseProbability(10, 11, 2, 1) has
B = 11 > N = 10, yet the call is not rejected — it silently returns
probability 0. -/
theorem C2_counterexample :
    probability_that_specific_sample_came_from_specific_jar 10 11 2 1 = some 0 := by
  have hnum : ways_to_get_specific_sample_from_specific_jar 10 11 2 1 = some 0 := by
    decide
  have hden : ways_to_get_specific_sample_from_all_jars_of_given_size 10 2 1
      = some 165 := by decide
  unfold probability_that_specific_sample_came_from_specific_jar
  rw [hnum, hden]
  simp only [Option.bind_eq_bind, Option.some_bind]
  norm_num

/-- C2 (amended): the code performs no input validation. A jar count
out of range (B < 0 or B > N), with an otherwise valid sample, is
silently accepted by reverseProbability, which returns probability 0
instead of rejecting the call (other domain violations surface only as
incidental ValueError or ZeroDivisionError exceptions, not as a defined
InvalidDomain error). -/
theorem C2_amended {N B s b : Int} (hb : 0 ≤ b) (hbs : b ≤ s) (hsN : s ≤ N)
    (hB : B < 0 ∨ N < B) :
    probability_that_specific_sample_came_from_specific_jar N B s b = some 0 := by
  rw [reverse_prob_eq hb hbs (reverse_den_pos hb hbs hsN),
    phi_eq_zero_of_out hb hbs hB]
  norm_num

/-- Witness for C2 (amended) at N = 10, B = -1, s = 2, b = 1. -/
theorem C2_witness :
    ((0 : Int) ≤ 1 ∧ (1 : Int) ≤ 2 ∧ (2 : Int) ≤ 10 ∧ ((-1 : Int) < 0 ∨ (10 : Int) < -1)) ∧
    probability_that_specific_sample_came_from_specific_jar 10 (-1) 2 1 = some 0 := by
  refine ⟨by decide, ?_⟩
  exact C2_amended (by decide) (by decide) (by decide) (Or.inl (by decide))

/-- C10: on the valid domain (0 ≤ s ≤ N, 0 ≤ b ≤ s, 0 ≤ B ≤ N) the
denominator sums of forwardProbability, reverseProbability and
reverseIntervalProbability are strictly positive — at least one
feasible composition always exists — so the divisions of all three
probability functions never divide by zero (no call raises). -/
theorem C10_denominators_never_zero {N B s b : Int} (hB : 0 ≤ B) (hBN : B ≤ N)
    (hs : 0 ≤ s) (hsN : s ≤ N) (hb : 0 ≤ b) (hbs : b ≤ s) :
    (∃ d : Nat, ways_to_get_all_samples_of_given_size_from_specific_jar N B s
      = some d ∧ 0 < d) ∧
    (∃ e : Nat, ways_to_get_specific_sample_from_all_jars_of_given_size N s b
      = some e ∧ 0 < e) ∧
    (∃ q : ℚ, probability_of_getting_specific_sample_from_specific_jar N B s b
      = some q) ∧
    (∃ q : ℚ, probability_that_specific_sample_came_from_specific_jar N B s b
      = some q) ∧
    (∀ L U : Int, ∃ q : ℚ,
      probability_that_specific_sample_came_from_interval_of_jars N L U s b
        = some q) := by
  refine ⟨⟨_, ways_all_eq N B s, forward_den_pos hB hBN hs hsN⟩,
    ⟨_, ways_jars_eq N hb hbs, reverse_den_pos hb hbs hsN⟩,
    ⟨_, forward_prob_eq hb hbs (forward_den_pos hB hBN hs hsN)⟩,
    ⟨_, reverse_prob_eq hb hbs (reverse_den_pos hb hbs hsN)⟩,
    fun L U => ⟨_, interval_prob_eq L U hb hbs (reverse_den_pos hb hbs hsN)⟩⟩

/-- Witness for C10 at N = 10, B = 7, s = 3, b = 2. -/
theorem C10_witness :
    ((0 : Int) ≤ 7 ∧ (7 : Int) ≤ 10 ∧ (0 : Int) ≤ 3 ∧ (3 : Int) ≤ 10 ∧
      (0 : Int) ≤ 2 ∧ (2 : Int) ≤ 3) ∧
    ((∃ d : Nat, ways_to_get_all_samples_of_given_size_from_specific_jar 10 7 3
      = some d ∧ 0 < d) ∧
    (∃ e : Nat, ways_to_get_specific_sample_from_all_jars_of_given_size 10 3 2
      = some e ∧ 0 < e) ∧
    (∃ q : ℚ, probability_of_getting_specific_sample_from_specific_jar 10 7 3 2
      = some q) ∧
    (∃ q : ℚ, probability_that_specific_sample_came_from_specific_jar 10 7 3 2
      = some q) ∧
    (∀ L U : Int, ∃ q : ℚ,
      probability_that_specific_sample_came_from_interval_of_jars 10 L U 3 2
        = some q)) := by
  refine ⟨by decide, ?_⟩
  exact C10_denominators_never_zero (by decide) (by decide) (by decide) (by decide)
    (by decide) (by decide)

theorem ratio_unit_interval {num den : Nat} (hle : num ≤ den) (hpos : 0 < den) :
    0 ≤ ((num : ℚ) / (den : ℚ)) ∧ ((num : ℚ) / (den : ℚ)) ≤ 1 := by
  constructor
  · exact div_nonneg (Nat.cast_nonneg num) (Nat.cast_nonneg den)
  · rw [div_le_one (by exact_mod_cast hpos)]
    exact_mod_cast hle

/-- C4: on the valid domain every probability function returns the
exact ratio of its two unbounded counts, a rational in [0, 1]; the
extraction is modeled as exact rational division, which cannot overflow
or lose precision whatever the magnitude of the counts (the float the
code returns is the correct rounding of this rational). -/
theorem C4_probabilities_in_unit_interval {N B s b : Int} (hB : 0 ≤ B) (hBN : B ≤ N)
    (hs : 0 ≤ s) (hsN : s ≤ N) (hb : 0 ≤ b) (hbs : b ≤ s) :
    (∃ q : ℚ, probability_of_getting_specific_sample_from_specific_jar N B s b
      = some q ∧ 0 ≤ q ∧ q ≤ 1) ∧
    (∃ q : ℚ, probability_that_specific_sample_came_from_specific_jar N B s b
      = some q ∧ 0 ≤ q ∧ q ≤ 1) ∧
    (∀ L U : Int, ∃ q : ℚ,
      probability_that_specific_sample_came_from_interval_of_jars N L U s b
        = some q ∧ 0 ≤ q ∧ q ≤ 1) := by
  refine ⟨⟨_, forward_prob_eq hb hbs (forward_den_pos hB hBN hs hsN), ?_⟩,
    ⟨_, reverse_prob_eq hb hbs (reverse_den_pos hb hbs hsN), ?_⟩,
    fun L U => ⟨_, interval_prob_eq L U hb hbs (reverse_den_pos hb hbs hsN), ?_⟩⟩
  · exact ratio_unit_interval
      (Finset.single_le_sum (f := fun x => phi N B s x)
        (fun i _ => Nat.zero_le _) (by simp only [Finset.mem_Icc]; omega))
      (forward_den_pos hB hBN hs hsN)
  · exact ratio_unit_interval
      (Finset.single_le_sum (f := fun x => phi N x s b)
        (fun i _ => Nat.zero_le _) (by simp only [Finset.mem_Icc]; omega))
      (reverse_den_pos hb hbs hsN)
  · exact ratio_unit_interval (sum_phi_interval_le hb hbs L U)
      (reverse_den_pos hb hbs hsN)

/-- Witness for C4 at N = 10, B = 7, s = 3, b = 2. -/
theorem C4_witness :
    ((0 : Int) ≤ 7 ∧ (7 : Int) ≤ 10 ∧ (0 : Int) ≤ 3 ∧ (3 : Int) ≤ 10 ∧
      (0 : Int) ≤ 2 ∧ (2 : Int) ≤ 3) ∧
    ((∃ q : ℚ, probability_of_getting_specific_sample_from_specific_jar 10 7 3 2
      = some q ∧ 0 ≤ q ∧ q ≤ 1) ∧
    (∃ q : ℚ, probability_that_specific_sample_came_from_specific_jar 10 7 3 2
      = some q ∧ 0 ≤ q ∧ q ≤ 1) ∧
    (∀ L U : Int, ∃ q : ℚ,
      probability_that_specific_sample_came_from_interval_of_jars 10 L U 3 2
        = some q ∧ 0 ≤ q ∧ q ≤ 1)) := by
  refine ⟨by decide, ?_⟩
  exact C4_probabilities_in_unit_interval (by decide) (by decide) (by decide)
    (by decide) (by decide) (by decide)

/-- C9: for a valid sample and every pair of integer bounds L ≤ U, even
outside [0, N], reverseIntervalProbability is defined (raises nothing),
every numerator term with B < 0 or B > N is exactly zero, and the
result coincides with the probability of the interval clipped to
[0, N]. -/
theorem C9_interval_clipping {N s b : Int} (hb : 0 ≤ b) (hbs : b ≤ s) (hsN : s ≤ N)
    (L U : Int) (hLU : L ≤ U) :
    (∀ B : Int, B < 0 ∨ N < B →
      ways_to_get_specific_sample_from_specific_jar N B s b = some 0) ∧
    (∃ q : ℚ, probability_that_specific_sample_came_from_interval_of_jars N L U s b
        = some q ∧
      probability_that_specific_sample_came_from_interval_of_jars
        N (max L 0) (min U N) s b = some q) := by
  refine ⟨fun B hout => ?_, ⟨_, interval_prob_eq L U hb hbs
    (reverse_den_pos hb hbs hsN), ?_⟩⟩
  · rw [ways_eq_phi hb hbs, phi_eq_zero_of_out hb hbs hout]
  · rw [interval_prob_eq (max L 0) (min U N) hb hbs (reverse_den_pos hb hbs hsN),
      sum_phi_clip hb hbs L U]

/-- Witness for C9 at N = 10, s = 3, b = 2, L = -4, U = 15. -/
theorem C9_witness :
    ((0 : Int) ≤ 2 ∧ (2 : Int) ≤ 3 ∧ (3 : Int) ≤ 10 ∧ (-4 : Int) ≤ 15) ∧
    ((∀ B : Int, B < 0 ∨ (10 : Int) < B →
      ways_to_get_specific_sample_from_specific_jar 10 B 3 2 = some 0) ∧
    (∃ q : ℚ,
      probability_that_specific_sample_came_from_interval_of_jars 10 (-4) 15 3 2
        = some q ∧
      probability_that_specific_sample_came_from_interval_of_jars
        10 (max (-4) 0) (min 15 10) 3 2 = some q)) := by
  refine ⟨by decide, ?_⟩
  exact C9_interval_clipping (by decide) (by decide) (by decide) (-4) 15 (by decide)

/-- C1: the spec claims choose(n, k) returns 0 whenever k > n or k < 0
or n < 0. The code contradicts this for k < 0 with k ≤ n: there
`math.factorial(k)` raises ValueError, so choose(5, -1) raises instead
of returning 0. -/
theorem C1_counterexample : choose 5 (-1) = none ∧ choose 5 (-1) ≠ some 0 := by
  exact ⟨by decide, by decide⟩

/-- C1 (amended): choose(n, k) returns 0 whenever n < k (which covers
every n < 0 with k ≥ 0), returns exactly n!/((n-k)!·k!) — the binomial
coefficient C(n, k), the division being exact — when 0 ≤ k ≤ n, and
raises ValueError (factorial of a negative) when k < 0 with k ≤ n,
instead of returning 0 as the spec claims. -/
theorem C1_amended (n k : Int) :
    choose n k = if n < k then some 0
      else if k < 0 then none
      else some (n.toNat.choose k.toNat) := by
  by_cases h1 : n < k
  · rw [if_pos h1]
    unfold choose
    rw [if_pos h1]
  · rw [if_neg h1]
    by_cases h2 : k < 0
    · rw [if_pos h2]
      exact choose_eq_none h2 (not_lt.mp h1)
    · rw [if_neg h2, choose_eq_chooseZ (not_lt.mp h2)]
      unfold chooseZ
      rw [if_neg h1]

/-- C8: for a valid sample, any integer center, and half-widths
0 ≤ d1 ≤ d2, the interval probability at d1 is at most the interval
probability at d2: widening the interval adds only non-negative mass
over the fixed positive denominator. -/
theorem C8_interval_monotone {N s b : Int} (hb : 0 ≤ b) (hbs : b ≤ s) (hsN : s ≤ N)
    (Bc d1 d2 : Int) (h1 : 0 ≤ d1) (h12 : d1 ≤ d2) :
    ∃ q1 q2 : ℚ,
      probability_that_specific_sample_came_from_interval_of_jars
        N (Bc - d1) (Bc + d1) s b = some q1 ∧
      probability_that_specific_sample_came_from_interval_of_jars
        N (Bc - d2) (Bc + d2) s b = some q2 ∧
      q1 ≤ q2 := by
  have hden := reverse_den_pos hb hbs hsN
  refine ⟨_, _, interval_prob_eq _ _ hb hbs hden, interval_prob_eq _ _ hb hbs hden, ?_⟩
  rw [div_le_div_iff_of_pos_right (by exact_mod_cast hden)]
  have hsub : ∑ x ∈ Finset.Icc (Bc - d1) (Bc + d1), phi N x s b
      ≤ ∑ x ∈ Finset.Icc (Bc - d2) (Bc + d2), phi N x s b := by
    apply Finset.sum_le_sum_of_subset
    intro x hx
    simp only [Finset.mem_Icc] at hx ⊢
    omega
  exact_mod_cast hsub

/-- Witness for C8 at N = 10, s = 3, b = 2, center 5, d1 = 1, d2 = 2. -/
theorem C8_witness :
    ((0 : Int) ≤ 2 ∧ (2 : Int) ≤ 3 ∧ (3 : Int) ≤ 10 ∧ (0 : Int) ≤ 1 ∧ (1 : Int) ≤ 2) ∧
    (∃ q1 q2 : ℚ,
      probability_that_specific_sample_came_from_interval_of_jars
        10 (5 - 1) (5 + 1) 3 2 = some q1 ∧
      probability_that_specific_sample_came_from_interval_of_jars
        10 (5 - 2) (5 + 2) 3 2 = some q2 ∧
      q1 ≤ q2) := by
  refine ⟨by decide, ?_⟩
  exact C8_interval_monotone (by decide) (by decide) (by decide) 5 1 2
    (by decide) (by decide)

/-- Once the interval covers [0, N] the interval probability is
exactly 1. -/
theorem interval_prob_full {N s b : Int} (hb : 0 ≤ b) (hbs : b ≤ s) (hsN : s ≤ N)
    {L U : Int} (hL : L ≤ 0) (hU : N ≤ U) :
    probability_that_specific_sample_came_from_interval_of_jars N L U s b
      = some 1 := by
  have hden := reverse_den_pos hb hbs hsN
  rw [interval_prob_eq L U hb hbs hden, sum_phi_clip hb hbs L U,
    max_eq_right hL, min_eq_right hU,
    div_self (by exact_mod_cast Nat.pos_iff_ne_zero.mp hden)]

/-- Invariant of the search loop: whatever pair it returns consists of
the starting center and a half-width at least the starting one whose
interval probability reached the confidence threshold, while the
half-width one smaller (unless it is the starting one) fell short. -/
theorem thetaLoop_spec {N s b : Int} {conf : ℚ} {Bg : Int} :
    ∀ (fuel : Nat) (delta Bs Ds : Int),
      thetaLoop N s b conf Bg fuel delta = some (Bs, Ds) →
      Bs = Bg ∧ delta ≤ Ds ∧
      (∃ q : ℚ, probability_that_specific_sample_came_from_interval_of_jars
          N (Bg - Ds) (Bg + Ds) s b = some q ∧ conf ≤ q) ∧
      (Ds = delta ∨ ∃ q : ℚ,
        probability_that_specific_sample_came_from_interval_of_jars
          N (Bg - (Ds - 1)) (Bg + (Ds - 1)) s b = some q ∧ q < conf) := by
  intro fuel
  induction fuel with
  | zero =>
    intro delta Bs Ds h
    exact absurd h (by unfold thetaLoop; exact Option.noConfusion)
  | succ fuel ih =>
    intro delta Bs Ds h
    unfold thetaLoop at h
    cases hp : probability_that_specific_sample_came_from_interval_of_jars
        N (Bg - delta) (Bg + delta) s b with
    | none =>
      rw [hp] at h
      exact absurd h (by exact Option.noConfusion)
    | some p =>
      rw [hp] at h
      simp only [Option.bind_eq_bind, Option.some_bind] at h
      by_cases hcmp : p < conf
      · rw [if_pos hcmp] at h
        obtain ⟨hBs, hd, hsat, hprev⟩ := ih (delta + 1) Bs Ds h
        refine ⟨hBs, by omega, hsat, ?_⟩
        right
        rcases hprev with heq | hex
        · refine ⟨p, ?_, hcmp⟩
          rw [show Ds - 1 = delta by omega]
          exact hp
        · exact hex
      · rw [if_neg hcmp] at h
        have hBs : Bg = Bs ∧ delta = Ds := by
          constructor <;> [exact congrArg Prod.fst (Option.some.inj h);
            exact congrArg Prod.snd (Option.some.inj h)]
        obtain ⟨h1, h2⟩ := hBs
        subst h1
        subst h2
        exact ⟨rfl, le_refl _, ⟨p, hp, not_lt.mp hcmp⟩, Or.inl rfl⟩

/-- The search loop returns within the supplied fuel as soon as the
fuel reaches past the covering half-width, because the interval
probability is 1 there and the threshold is below 1. -/
theorem thetaLoop_terminates {N s b : Int} {conf : ℚ} {Bg : Int}
    (hb : 0 ≤ b) (hbs : b ≤ s) (hsN : s ≤ N) (hconf : conf < 1) :
    ∀ (fuel : Nat) (delta : Int), 1 ≤ fuel →
      max Bg (N - Bg) < delta + fuel →
      ∃ r, thetaLoop N s b conf Bg fuel delta = some r := by
  intro fuel
  induction fuel with
  | zero =>
    intro delta h1 _
    omega
  | succ fuel ih =>
    intro delta _ hbound
    have hden := reverse_den_pos hb hbs hsN
    by_cases hdel : max Bg (N - Bg) ≤ delta
    · have h1 : probability_that_specific_sample_came_from_interval_of_jars
          N (Bg - delta) (Bg + delta) s b = some 1 :=
        interval_prob_full hb hbs hsN
          (by have := le_max_left Bg (N - Bg); omega)
          (by have := le_max_right Bg (N - Bg); omega)
      refine ⟨(Bg, delta), ?_⟩
      unfold thetaLoop
      rw [h1]
      simp only [Option.bind_eq_bind, Option.some_bind]
      rw [if_neg (not_lt.mpr (le_of_lt hconf))]
    · have hfuel : 1 ≤ fuel := by omega
      have hp := interval_prob_eq (Bg - delta) (Bg + delta) hb hbs hden
      unfold thetaLoop
      rw [hp]
      simp only [Option.bind_eq_bind, Option.some_bind]
      by_cases hcmp : ((∑ x ∈ Finset.Icc (Bg - delta) (Bg + delta), phi N x s b : Nat)
          / ((∑ x ∈ Finset.Icc 0 N, phi N x s b : Nat) : ℚ)) < conf
      · rw [if_pos hcmp]
        exact ih (delta + 1) hfuel (by omega)
      · rw [if_neg hcmp]
        exact ⟨(Bg, delta), rfl⟩

/-- On the valid domain with confidence below 1 the whole search
returns a pair. -/
theorem theta_some {N s b : Int} {conf : ℚ} (hs : 0 < s) (hsN : s ≤ N)
    (hb : 0 ≤ b) (hbs : b ≤ s) (hc1 : conf < 1) :
    ∃ pair : Int × Int, theta N s b conf = some pair := by
  unfold theta B_guess
  rw [if_neg (by omega : ¬ s = 0)]
  simp only [Option.bind_eq_bind, Option.some_bind]
  apply thetaLoop_terminates hb hbs hsN hc1
  · omega
  · have h := Int.self_le_toNat (max (pyTrunc (toDouble (toDouble (b : ℚ) *
      toDouble ((N : ℚ) / (s : ℚ))))) (N - pyTrunc (toDouble (toDouble (b : ℚ) *
      toDouble ((N : ℚ) / (s : ℚ))))))
    omega

/-- Whatever pair theta returns satisfies the confidence-interval
postcondition, and its center is the point estimate. -/
theorem theta_spec {N s b : Int} {conf : ℚ} {Bs Ds : Int}
    (h : theta N s b conf = some (Bs, Ds)) :
    B_guess N s b = some Bs ∧ 1 ≤ Ds ∧
    (∃ q : ℚ, probability_that_specific_sample_came_from_interval_of_jars
        N (Bs - Ds) (Bs + Ds) s b = some q ∧ conf ≤ q) ∧
    (1 < Ds → ∃ q : ℚ,
      probability_that_specific_sample_came_from_interval_of_jars
        N (Bs - (Ds - 1)) (Bs + (Ds - 1)) s b = some q ∧ q < conf) := by
  unfold theta at h
  cases hBg : B_guess N s b with
  | none =>
    rw [hBg] at h
    exact absurd h (by exact Option.noConfusion)
  | some Bg =>
    rw [hBg] at h
    simp only [Option.bind_eq_bind, Option.some_bind] at h
    obtain ⟨hBs, hd, hsat, hprev⟩ := thetaLoop_spec _ _ _ _ h
    subst hBs
    refine ⟨rfl, hd, hsat, fun hgt => ?_⟩
    rcases hprev with heq | hex
    · omega
    · exact hex

/-- C6: for every valid (N, s, b) with s > 0 and confidence in (0, 1),
theta returns a pair (B*, Delta*) whose center is the point estimate
B_guess(N, s, b) and whose half-width Delta* is at least 1, with the
interval [B*-Delta*, B*+Delta*] reaching the requested confidence
while, whenever Delta* > 1, the interval one unit narrower falls short
of it. -/
theorem C6_confidence_interval_correct {N s b : Int} {conf : ℚ} (hs : 0 < s)
    (hsN : s ≤ N) (hb : 0 ≤ b) (hbs : b ≤ s) (hc0 : 0 < conf) (hc1 : conf < 1) :
    ∃ Bs Ds : Int, theta N s b conf = some (Bs, Ds) ∧
      B_guess N s b = some Bs ∧ 1 ≤ Ds ∧
      (∃ q : ℚ, probability_that_specific_sample_came_from_interval_of_jars
          N (Bs - Ds) (Bs + Ds) s b = some q ∧ conf ≤ q) ∧
      (1 < Ds → ∃ q : ℚ,
        probability_that_specific_sample_came_from_interval_of_jars
          N (Bs - (Ds - 1)) (Bs + (Ds - 1)) s b = some q ∧ q < conf) := by
  obtain ⟨⟨Bs, Ds⟩, hth⟩ := theta_some hs hsN hb hbs hc1
  obtain ⟨hBg, hd, hsat, hnarrow⟩ := theta_spec hth
  exact ⟨Bs, Ds, hth, hBg, hd, hsat, hnarrow⟩

/-- Witness for C6 at N = 4, s = 2, b = 1, confidence 1/2. -/
theorem C6_witness :
    ((0 : Int) < 2 ∧ (2 : Int) ≤ 4 ∧ (0 : Int) ≤ 1 ∧ (1 : Int) ≤ 2 ∧
      (0 : ℚ) < 1 / 2 ∧ (1 : ℚ) / 2 < 1) ∧
    (∃ Bs Ds : Int, theta 4 2 1 (1 / 2) = some (Bs, Ds) ∧
      B_guess 4 2 1 = some Bs ∧ 1 ≤ Ds ∧
      (∃ q : ℚ, probability_that_specific_sample_came_from_interval_of_jars
          4 (Bs - Ds) (Bs + Ds) 2 1 = some q ∧ 1 / 2 ≤ q) ∧
      (1 < Ds → ∃ q : ℚ,
        probability_that_specific_sample_came_from_interval_of_jars
          4 (Bs - (Ds - 1)) (Bs + (Ds - 1)) 2 1 = some q ∧ q < 1 / 2)) := by
  refine ⟨⟨by decide, by decide, by decide, by decide, one_half_pos, ?_⟩, ?_⟩
  · exact one_half_lt_one
  · exact C6_confidence_interval_correct (by decide) (by decide) (by decide)
      (by decide) one_half_pos one_half_lt_one

/-- C7: for every valid (N, s, b) with s > 0 and confidence in (0, 1),
the theta search loop terminates — theta returns a pair — because the
interval probability is non-decreasing in the half-width and equals 1
once the interval covers [0, N]. -/
theorem C7_search_terminates {N s b : Int} {conf : ℚ} (hs : 0 < s)
    (hsN : s ≤ N) (hb : 0 ≤ b) (hbs : b ≤ s) (hc0 : 0 < conf) (hc1 : conf < 1) :
    (∃ pair : Int × Int, theta N s b conf = some pair) ∧
    (∀ L U : Int, L ≤ 0 → N ≤ U →
      probability_that_specific_sample_came_from_interval_of_jars N L U s b
        = some 1) :=
  ⟨theta_some hs hsN hb hbs hc1,
    fun _ _ hL hU => interval_prob_full hb hbs hsN hL hU⟩

/-- Witness for C7 at N = 4, s = 2, b = 1, confidence 1/2. -/
theorem C7_witness :
    ((0 : Int) < 2 ∧ (2 : Int) ≤ 4 ∧ (0 : Int) ≤ 1 ∧ (1 : Int) ≤ 2 ∧
      (0 : ℚ) < 1 / 2 ∧ (1 : ℚ) / 2 < 1) ∧
    ((∃ pair : Int × Int, theta 4 2 1 (1 / 2) = some pair) ∧
    (∀ L U : Int, L ≤ 0 → (4 : Int) ≤ U →
      probability_that_specific_sample_came_from_interval_of_jars 4 L U 2 1
        = some 1)) := by
  refine ⟨⟨by decide, by decide, by decide, by decide, one_half_pos, ?_⟩, ?_⟩
  · exact one_half_lt_one
  · exact C7_search_terminates (by decide) (by decide) (by decide) (by decide)
      one_half_pos one_half_lt_one

/-! ## Evaluating the binary64 rounding model -/

theorem roundHalfEven_eval_low {q : ℚ} {f : Int} (h1 : (f : ℚ) ≤ q)
    (h2 : q < (f : ℚ) + 1 / 2) : roundHalfEven q = f := by
  have hf : ⌊q⌋ = f := Int.floor_eq_iff.mpr ⟨h1, by linarith⟩
  simp only [roundHalfEven, hf]
  rw [if_pos (by linarith)]

theorem roundHalfEven_eval_high {q : ℚ} {f : Int} (h1 : (f : ℚ) + 1 / 2 < q)
    (h2 : q < (f : ℚ) + 1) : roundHalfEven q = f + 1 := by
  have hf : ⌊q⌋ = f := Int.floor_eq_iff.mpr ⟨by linarith, by linarith⟩
  simp only [roundHalfEven, hf]
  rw [if_neg (by linarith), if_pos (by linarith)]

theorem roundHalfEven_int (m : Int) : roundHalfEven (m : ℚ) = m := by
  have hf : ⌊(m : ℚ)⌋ = m := Int.floor_intCast m
  simp only [roundHalfEven, hf]
  rw [if_pos (by linarith)]

theorem int_log_two_eq {q : ℚ} {L : Int} (hq : 0 < q)
    (h1 : (2 : ℚ) ^ L ≤ q) (h2 : q < (2 : ℚ) ^ (L + 1)) : Int.log 2 q = L := by
  have ha : L ≤ Int.log 2 q := by
    rw [← Int.zpow_le_iff_le_log one_lt_two hq]
    exact_mod_cast h1
  have hb2 : Int.log 2 q < L + 1 := by
    rw [← Int.lt_zpow_iff_log_lt one_lt_two hq]
    exact_mod_cast h2
  omega

theorem toDouble_eval {q : ℚ} {L m : Int} (hq : 0 < q)
    (h1 : (2 : ℚ) ^ L ≤ q) (h2 : q < (2 : ℚ) ^ (L + 1))
    (hm : roundHalfEven (q * (2 : ℚ) ^ ((52 : Int) - L)) = m) :
    toDouble q = (m : ℚ) * (2 : ℚ) ^ (L - 52) := by
  have habs : |q| = q := abs_of_pos hq
  simp only [toDouble, if_neg (ne_of_gt hq), if_neg (not_lt.mpr hq.le), habs,
    int_log_two_eq hq h1 h2]
  rw [show -(L - 52) = 52 - L by ring, hm]
  ring

/-- A positive integer below 2^53 is represented exactly by a binary64
double. -/
theorem toDouble_nat_exact {m : Nat} (h0 : 0 < m) (h53 : m < 2 ^ 53) :
    toDouble (m : ℚ) = (m : ℚ) := by
  set L : Nat := Nat.log 2 m with hLdef
  have hL52 : L ≤ 52 := by
    have := Nat.log_lt_of_lt_pow (by omega : m ≠ 0) h53
    omega
  have hpow : ∀ k : Nat, (2 : ℚ) ^ ((k : Int)) = ((2 ^ k : Nat) : ℚ) := by
    intro k
    rw [zpow_natCast]
    push_cast
    ring
  have h1 : (2 : ℚ) ^ ((L : Int)) ≤ (m : ℚ) := by
    rw [hpow L]
    exact_mod_cast Nat.pow_log_le_self 2 (by omega)
  have h2 : (m : ℚ) < (2 : ℚ) ^ ((L : Int) + 1) := by
    rw [show (L : Int) + 1 = ((L + 1 : Nat) : Int) by push_cast; ring, hpow (L + 1)]
    exact_mod_cast Nat.lt_pow_succ_log_self one_lt_two m
  have hint : (m : ℚ) * (2 : ℚ) ^ ((52 : Int) - (L : Int))
      = (((m * 2 ^ (52 - L) : Nat) : Int) : ℚ) := by
    rw [show (52 : Int) - (L : Int) = ((52 - L : Nat) : Int) by omega, zpow_natCast]
    push_cast
    ring
  have hm : roundHalfEven ((m : ℚ) * (2 : ℚ) ^ ((52 : Int) - (L : Int)))
      = ((m * 2 ^ (52 - L) : Nat) : Int) := by
    rw [hint]
    exact roundHalfEven_int _
  rw [toDouble_eval (by exact_mod_cast h0) h1 h2 hm, ← hint, mul_assoc,
    ← zpow_add₀ (by norm_num : (2 : ℚ) ≠ 0)]
  norm_num

/-- A non-negative integer below 2^53 is represented exactly by a
binary64 double. -/
theorem toDouble_int_exact {m : Int} (h0 : 0 ≤ m) (h53 : m < 2 ^ 53) :
    toDouble (m : ℚ) = (m : ℚ) := by
  rcases eq_or_lt_of_le h0 with h | h
  · rw [← h]
    norm_num [toDouble]
  · have hcast : (m : ℚ) = ((m.toNat : Nat) : ℚ) := by
      exact_mod_cast (Int.toNat_of_nonneg h0).symm
    rw [hcast]
    exact toDouble_nat_exact (by omega) (by omega)

/-- C3: the spec claims B_guess(N, s, b) returns exactly the floor of
the exact rational b·N/s. The code contradicts this: it computes
int(b * (N / s)) in binary64 floating point, and at N = 15, s = 11,
b = 11 the double product 11 * (15/11) evaluates to
14.999999999999998, so the code returns 14 while the exact floor of
11·15/11 is 15. -/
theorem zpow_neg_ofNat (k : Nat) : (2 : ℚ) ^ (-(k : Int)) = ((2 ^ k : ℚ))⁻¹ := by
  rw [zpow_neg, zpow_natCast]

theorem C3_counterexample :
    B_guess 15 11 11 = some 14 ∧ (⌊((11 : ℚ) * 15) / 11⌋ : Int) = 15 := by
  constructor
  · have hd1 : toDouble ((15 : ℚ) / 11)
        = (6141272219141585 : ℚ) * (2 : ℚ) ^ (-52 : Int) := by
      apply toDouble_eval (L := 0) (by norm_num)
      · norm_num
      · norm_num
      · rw [show (52 : Int) - 0 = ((52 : Nat) : Int) by norm_num, zpow_natCast]
        apply roundHalfEven_eval_low <;> norm_num
    have h11 : toDouble (11 : ℚ) = 11 := by
      have h := toDouble_nat_exact (m := 11) (by norm_num) (by norm_num)
      exact_mod_cast h
    have hd2 : toDouble ((11 : ℚ) * ((6141272219141585 : ℚ) * (2 : ℚ) ^ (-52 : Int)))
        = (8444249301319679 : ℚ) * (2 : ℚ) ^ (-49 : Int) := by
      apply toDouble_eval (L := 3)
      · rw [show (-52 : Int) = -((52 : Nat) : Int) by norm_num, zpow_neg_ofNat]
        positivity
      · rw [show (-52 : Int) = -((52 : Nat) : Int) by norm_num, zpow_neg_ofNat,
          show (3 : Int) = ((3 : Nat) : Int) by norm_num, zpow_natCast]
        norm_num
      · rw [show (-52 : Int) = -((52 : Nat) : Int) by norm_num, zpow_neg_ofNat,
          show (3 : Int) + 1 = ((4 : Nat) : Int) by norm_num, zpow_natCast]
        norm_num
      · rw [show (52 : Int) - 3 = ((49 : Nat) : Int) by norm_num, zpow_natCast,
          show (-52 : Int) = -((52 : Nat) : Int) by norm_num, zpow_neg_ofNat]
        apply roundHalfEven_eval_low
        · push_cast
          norm_num
        · push_cast
          norm_num
    unfold B_guess
    rw [if_neg (by norm_num)]
    have hcast : ((11 : Int) : ℚ) = (11 : ℚ) := by norm_num
    have hcast2 : ((15 : Int) : ℚ) = (15 : ℚ) := by norm_num
    rw [hcast, hcast2, hd1, h11, hd2]
    unfold pyTrunc
    rw [if_pos (by
      rw [show (-49 : Int) = -((49 : Nat) : Int) by norm_num, zpow_neg_ofNat]
      positivity)]
    congr 1
    apply Int.floor_eq_iff.mpr
    rw [show (-49 : Int) = -((49 : Nat) : Int) by norm_num, zpow_neg_ofNat]
    push_cast
    norm_num
  · apply Int.floor_eq_iff.mpr
    norm_num

/-- C3 (amended): B_guess computes int(b * (N / s)) in binary64
floating point, not exact rational arithmetic. When s divides N and
N < 2^53 every intermediate double is exact, so the result is exactly
floor(b·N/s); for general s the float rounding can move the result off
the exact floor, as the counterexample N = 15, s = 11, b = 11 shows. -/
theorem C3_amended {N s b : Int} (hs : 0 < s) (hsN : s ≤ N) (hb : 0 ≤ b)
    (hbs : b ≤ s) (hdvd : s ∣ N) (hN : N < 2 ^ 53) :
    B_guess N s b = some ⌊((b : ℚ) * (N : ℚ)) / (s : ℚ)⌋ := by
  obtain ⟨M, rfl⟩ := hdvd
  have hs0 : (s : ℚ) ≠ 0 := by
    exact_mod_cast ne_of_gt hs
  have hM1 : 1 ≤ M := by
    by_contra hM
    push_neg at hM
    nlinarith
  have hssM : s ≤ s * M := hsN
  have hMsM : M ≤ s * M := by nlinarith
  have hbM : b * M ≤ s * M := by nlinarith
  have hdivM : ((s * M : Int) : ℚ) / ((s : Int) : ℚ) = ((M : Int) : ℚ) := by
    push_cast
    rw [mul_comm, mul_div_assoc, div_self hs0, mul_one]
  have htM : toDouble ((M : Int) : ℚ) = ((M : Int) : ℚ) :=
    toDouble_int_exact (by omega) (by omega)
  have htb : toDouble ((b : Int) : ℚ) = ((b : Int) : ℚ) :=
    toDouble_int_exact hb (by omega)
  have htbM : toDouble ((b * M : Int) : ℚ) = ((b * M : Int) : ℚ) :=
    toDouble_int_exact (mul_nonneg hb (by omega)) (by omega)
  unfold B_guess
  rw [if_neg (by omega), hdivM, htM, htb,
    show ((b : Int) : ℚ) * ((M : Int) : ℚ) = ((b * M : Int) : ℚ) by push_cast; ring,
    htbM]
  unfold pyTrunc
  rw [if_pos (by exact_mod_cast mul_nonneg hb (by omega : (0 : Int) ≤ M)),
    Int.floor_intCast]
  congr 1
  rw [show ((b : Int) : ℚ) * ((s * M : Int) : ℚ) / ((s : Int) : ℚ)
      = ((b * M : Int) : ℚ) by push_cast; field_simp; ring,
    Int.floor_intCast]

/-- Witness for C3 (amended) at N = 10, s = 5, b = 3: the code returns
6, the exact floor of 3·10/5. -/
theorem C3_witness :
    ((0 : Int) < 5 ∧ (5 : Int) ≤ 10 ∧ (0 : Int) ≤ 3 ∧ (3 : Int) ≤ 5 ∧
      (5 : Int) ∣ 10 ∧ (10 : Int) < 2 ^ 53) ∧
    B_guess 10 5 3 = some ⌊((3 : ℚ) * 10) / 5⌋ := by
  refine ⟨⟨by decide, by decide, by decide, by decide, ⟨2, by decide⟩, by decide⟩, ?_⟩
  have h := C3_amended (N := 10) (s := 5) (b := 3) (by decide) (by decide)
    (by decide) (by decide) ⟨2, by decide⟩ (by decide)
  exact_mod_cast h

example : choose 5 2 = some 10 := by decide
example : choose 5 7 = some 0 := by decide
example : choose 0 0 = some 1 := by decide
example : choose 5 (-1) = none := by decide
example : choose (-1) (-2) = none := by decide
example : choose (-3) (-1) = some 0 := by decide
example : ways_to_get_specific_sample_from_specific_jar 10 4 3 2 = some 36 := by decide
example : ways_to_get_specific_sample_from_all_jars_of_given_size 10 2 1 = some 165 := by
  decide
